import Mathlib

/-!
Verification of the core BFT primitives of `plenum/common/util.py`:
`getMaxFailures`, `getQuorum`, `distributedConnectionMap`, `evenCompare`
and `checkIfMoreThanFSameItems`.

Conventions of the embedding:
* Python machine integers are modelled as `Nat` (all quantities involved are
  non-negative); 32-bit wrap-around inside SHA-256 is made explicit with
  `% 2^32`.
* Python code that can raise is embedded as `Except String _`; the string
  names the exception class raised by the interpreter.  A Python function
  that returns `None` on some path is embedded with an `Option` result on
  the `ok` side, so that "returned `None`" and "raised" stay distinct.
* `list.sort()` mutates the receiver in place; the variant
  `distributedConnectionMapState` returns the post-call state of the
  caller's list next to the result to make that effect observable.
-/

/-- Number of occurrences of `x` in a list (Python `list.count`). -/
def countOcc [DecidableEq α] (x : α) : List α → Nat
  | [] => 0
  | y :: ys => (if y = x then 1 else 0) + countOcc x ys

/-- Index of the first occurrence of `x` (Python `list.index`); length of the
list when absent. -/
def firstIdx [DecidableEq α] (x : α) : List α → Nat
  | [] => 0
  | y :: ys => if y = x then 0 else firstIdx x ys + 1

/-- Maximum of a list of naturals, `0` for the empty list. -/
def natMaxList : List Nat → Nat
  | [] => 0
  | x :: xs => max x (natMaxList xs)

theorem countOcc_append [DecidableEq α] (x : α) (l₁ l₂ : List α) :
    countOcc x (l₁ ++ l₂) = countOcc x l₁ + countOcc x l₂ := by
  induction l₁ with
  | nil => simp [countOcc]
  | cons y ys ih => simp [countOcc, ih]; omega

theorem countOcc_eq_zero_of_not_mem [DecidableEq α] {x : α} {l : List α}
    (h : x ∉ l) : countOcc x l = 0 := by
  induction l with
  | nil => rfl
  | cons y ys ih =>
    simp only [List.mem_cons, not_or] at h
    simp [countOcc, Ne.symm h.1, ih h.2]

theorem mem_of_countOcc_pos [DecidableEq α] {x : α} {l : List α}
    (h : 0 < countOcc x l) : x ∈ l := by
  by_contra hx
  rw [countOcc_eq_zero_of_not_mem hx] at h
  exact Nat.lt_irrefl 0 h

theorem countOcc_eq_one_of_nodup [DecidableEq α] {x : α} {l : List α}
    (hn : l.Nodup) (hx : x ∈ l) : countOcc x l = 1 := by
  induction l with
  | nil => cases hx
  | cons y ys ih =>
    rcases List.mem_cons.mp hx with h | h
    · subst h
      simp [countOcc, countOcc_eq_zero_of_not_mem (List.nodup_cons.mp hn).1]
    · have hne : y ≠ x := by
        rintro rfl; exact (List.nodup_cons.mp hn).1 h
      simp [countOcc, hne, ih (List.nodup_cons.mp hn).2 h]

theorem le_natMaxList {a : Nat} {l : List Nat} (h : a ∈ l) : a ≤ natMaxList l := by
  induction l with
  | nil => cases h
  | cons x xs ih =>
    rcases List.mem_cons.mp h with h | h
    · subst h; exact Nat.le_max_left _ _
    · exact Nat.le_trans (ih h) (Nat.le_max_right _ _)

theorem natMaxList_le {l : List Nat} {m : Nat} (h : ∀ a ∈ l, a ≤ m) :
    natMaxList l ≤ m := by
  induction l with
  | nil => exact Nat.zero_le m
  | cons x xs ih =>
    exact Nat.max_le.mpr ⟨h x (List.mem_cons_self x xs),
      ih fun a ha => h a (List.mem_cons_of_mem x ha)⟩

/-!  FaultTolerance: `getMaxFailures` and `getQuorum`. -/

/-- Embedding of `getMaxFailures` (`util.py`, lines 168-179):
`floor((nodeCount - 1) / 3)` when `nodeCount >= 4`, else `0`.  The Python
float division followed by `floor` is exact integer floor division here,
modelled by `Nat` division. -/
def getMaxFailures (nodeCount : Nat) : Nat :=
  if 4 ≤ nodeCount then (nodeCount - 1) / 3 else 0

/-- Embedding of `getQuorum` (`util.py`, lines 182-194).  The body raises no
exception, so every path is `Except.ok`; the fall-through path of the Python
function (neither argument given) returns `None`, embedded as `ok none`. -/
def getQuorum (nodeCount : Option Nat) (f : Option Nat) : Except String (Option Nat) :=
  match (match nodeCount with
         | some n => some (getMaxFailures n)
         | none => f) with
  | some fv => Except.ok (some (2 * fv + 1))
  | none => Except.ok none

/-- C1: for every non-negative `n`, `getMaxFailures n` is `floor((n-1)/3)`
when `n ≥ 4` and `0` when `n < 4`; being a total `Nat`-valued function it
never fails. -/
theorem getMaxFailures_spec (n : Nat) :
    (4 ≤ n → getMaxFailures n = (n - 1) / 3) ∧ (n < 4 → getMaxFailures n = 0) := by
  constructor
  · intro h; simp [getMaxFailures, h]
  · intro h; simp [getMaxFailures, Nat.not_le.mpr h]

theorem getMaxFailures_spec_witness :
    getMaxFailures 7 = (7 - 1) / 3 ∧ getMaxFailures 2 = 0 :=
  ⟨(getMaxFailures_spec 7).1 (by decide), (getMaxFailures_spec 2).2 (by decide)⟩

/-- C5: whenever at least one argument is supplied, `getQuorum` returns
`2 * f + 1` where `f` is `getMaxFailures n` if `n` is supplied (overriding a
supplied `f`) and the supplied `f` otherwise. -/
theorem getQuorum_spec (n f : Option Nat) (h : n.isSome ∨ f.isSome) :
    getQuorum n f =
      Except.ok (some (2 * ((n.map getMaxFailures).getD (f.getD 0)) + 1)) := by
  cases n with
  | some nv => simp [getQuorum]
  | none =>
    cases f with
    | some fv => simp [getQuorum]
    | none => simp [Option.isSome] at h

theorem getQuorum_spec_witness :
    getQuorum none (some 2) = Except.ok (some 5) ∧
      getQuorum (some 4) none = Except.ok (some 3) :=
  ⟨getQuorum_spec none (some 2) (Or.inr rfl), getQuorum_spec (some 4) none (Or.inl rfl)⟩

/-- C6 counterexample: called with neither argument, `getQuorum` does not
raise; the Python body falls through and returns `None`, a normal return
value and in particular not an `InvalidArgument`-style error. -/
theorem getQuorum_noArgs_ok :
    getQuorum none none = Except.ok none ∧
      getQuorum none none ≠ Except.error "InvalidArgument" := by
  refine ⟨rfl, fun h => ?_⟩
  simp [getQuorum] at h

/-- C6 amended: with neither a participant count nor a fault bound,
`getQuorum` returns `None` as a normal (non-error) result. -/
theorem getQuorum_noArgs_returns_none :
    getQuorum none none = Except.ok none ∧
      ∀ e, getQuorum none none ≠ Except.error e := by
  refine ⟨rfl, fun e h => ?_⟩
  simp [getQuorum] at h

/-!  TieBreaker: `evenCompare` over SHA-256 digests. -/

/-- Reduction modulo `2^32`, the wrap-around of 32-bit words in SHA-256. -/
def w32 (n : Nat) : Nat := n % 4294967296

/-- Right rotation of a 32-bit word by `n` bits. -/
def rotr32 (n x : Nat) : Nat := w32 ((x >>> n) ||| (x <<< (32 - n)))

/-- Round constants of SHA-256 (fractional parts of cube roots of the first
64 primes), in decimal. -/
def sha256K : List Nat :=
  [1116352408, 1899447441, 3049323471, 3921009573, 961987163, 1508970993, 2453635748,
   2870763221, 3624381080, 310598401, 607225278, 1426881987, 1925078388, 2162078206,
   2614888103, 3248222580, 3835390401, 4022224774, 264347078, 604807628, 770255983,
   1249150122, 1555081692, 1996064986, 2554220882, 2821834349, 2952996808, 3210313671,
   3336571891, 3584528711, 113926993, 338241895, 666307205, 773529912, 1294757372,
   1396182291, 1695183700, 1986661051, 2177026350, 2456956037, 2730485921, 2820302411,
   3259730800, 3345764771, 3516065817, 3600352804, 4094571909, 275423344, 430227734,
   506948616, 659060556, 883997877, 958139571, 1322822218, 1537002063, 1747873779,
   1955562222, 2024104815, 2227730452, 2361852424, 2428436474, 2756734187, 3204031479,
   3329325298]

/-- Initial hash state of SHA-256. -/
def sha256H0 : List Nat :=
  [1779033703, 3144134277, 1013904242, 2773480762, 1359893119, 2600822924, 528734635,
   1541459225]

/-- Big-endian grouping of bytes into 32-bit words. -/
def bytesToWords : List Nat → List Nat
  | a :: b :: c :: d :: rest => (((a * 256 + b) * 256 + c) * 256 + d) :: bytesToWords rest
  | _ => []

/-- Big-endian bytes of a 32-bit word. -/
def wordToBytes (x : Nat) : List Nat :=
  [(x >>> 24) % 256, (x >>> 16) % 256, (x >>> 8) % 256, x % 256]

/-- Big-endian 64-bit length field of the SHA-256 padding. -/
def lenBytes8 (n : Nat) : List Nat :=
  [(n >>> 56) % 256, (n >>> 48) % 256, (n >>> 40) % 256, (n >>> 32) % 256,
   (n >>> 24) % 256, (n >>> 16) % 256, (n >>> 8) % 256, n % 256]

/-- SHA-256 message padding: a `0x80` byte, zeros up to 56 mod 64, then the
bit length. -/
def padBytes (msg : List Nat) : List Nat :=
  msg ++ 128 :: List.replicate ((119 - msg.length % 64) % 64) 0 ++ lenBytes8 (8 * msg.length)

/-- Split into 64-byte blocks; the first argument is fuel bounding the number
of blocks (the padded length suffices). -/
def chunk64 : Nat → List Nat → List (List Nat)
  | 0, _ => []
  | _, [] => []
  | fuel + 1, l => l.take 64 :: chunk64 fuel (l.drop 64)

/-- One extension step of the SHA-256 message schedule. -/
def scheduleStep (ws : List Nat) : List Nat :=
  let i := ws.length
  let w15 := ws.getD (i - 15) 0
  let w2 := ws.getD (i - 2) 0
  let w16 := ws.getD (i - 16) 0
  let w7 := ws.getD (i - 7) 0
  let s0 := rotr32 7 w15 ^^^ rotr32 18 w15 ^^^ (w15 >>> 3)
  let s1 := rotr32 17 w2 ^^^ rotr32 19 w2 ^^^ (w2 >>> 10)
  ws ++ [w32 (w16 + s0 + w7 + s1)]

/-- Extension of the 16 block words to the 64 schedule words. -/
def schedule (ws : List Nat) : List Nat :=
  (List.range 48).foldl (fun acc _ => scheduleStep acc) ws

/-- One SHA-256 compression round on the 8-word working state. -/
def compressRound (st : Nat × Nat × Nat × Nat × Nat × Nat × Nat × Nat) (kw : Nat × Nat) :
    Nat × Nat × Nat × Nat × Nat × Nat × Nat × Nat :=
  match st, kw with
  | (a, b, c, d, e, f, g, h), (k, w) =>
    let bigS1 := rotr32 6 e ^^^ rotr32 11 e ^^^ rotr32 25 e
    let ch := (e &&& f) ^^^ ((e ^^^ 4294967295) &&& g)
    let temp1 := w32 (h + bigS1 + ch + k + w)
    let bigS0 := rotr32 2 a ^^^ rotr32 13 a ^^^ rotr32 22 a
    let maj := (a &&& b) ^^^ (a &&& c) ^^^ (b &&& c)
    let temp2 := w32 (bigS0 + maj)
    (w32 (temp1 + temp2), a, b, c, w32 (d + temp1), e, f, g)

/-- Compression of one 64-byte block into the running hash state. -/
def compressBlock (hs : List Nat) (block : List Nat) : List Nat :=
  let ws := schedule (bytesToWords block)
  let a := hs.getD 0 0
  let b := hs.getD 1 0
  let c := hs.getD 2 0
  let d := hs.getD 3 0
  let e := hs.getD 4 0
  let f := hs.getD 5 0
  let g := hs.getD 6 0
  let h := hs.getD 7 0
  match (sha256K.zip ws).foldl compressRound (a, b, c, d, e, f, g, h) with
  | (a2, b2, c2, d2, e2, f2, g2, h2) =>
    [w32 (a + a2), w32 (b + b2), w32 (c + c2), w32 (d + d2), w32 (e + e2), w32 (f + f2),
     w32 (g + g2), w32 (h + h2)]

/-- SHA-256 of a byte sequence, as the list of the 32 digest bytes; embeds
`libnacl.crypto_hash_sha256`. -/
def sha256 (msg : List Nat) : List Nat :=
  let padded := padBytes msg
  (((chunk64 padded.length padded).foldl compressBlock sha256H0).map wordToBytes).flatten

/-- UTF-8 encoding of one code point. -/
def utf8Char (c : Char) : List Nat :=
  let n := c.toNat
  if n < 128 then [n]
  else if n < 2048 then [192 + n / 64, 128 + n % 64]
  else if n < 65536 then [224 + n / 4096, 128 + n / 64 % 64, 128 + n % 64]
  else [240 + n / 262144, 128 + n / 4096 % 64, 128 + n / 64 % 64, 128 + n % 64]

/-- UTF-8 encoding of a string (Python `str.encode` with no argument). -/
def strBytes (s : String) : List Nat :=
  (s.data.map utf8Char).flatten

/-- Lexicographic strict comparison of byte sequences, the semantics of
Python `bytes.__lt__`. -/
def bytesLt : List Nat → List Nat → Bool
  | [], [] => false
  | [], _ :: _ => true
  | _ :: _, [] => false
  | a :: as, b :: bs => if a < b then true else if b < a then false else bytesLt as bs

/-- Embedding of `evenCompare` (`util.py`, lines 227-237): UTF-8 encode both
identifiers, SHA-256 hash them, compare the digests byte-lexicographically. -/
def evenCompare (a b : String) : Bool :=
  bytesLt (sha256 (strBytes a)) (sha256 (strBytes b))

theorem bytesLt_irrefl (l : List Nat) : bytesLt l l = false := by
  induction l with
  | nil => rfl
  | cons x xs ih => simp [bytesLt, ih]

theorem bytesLt_asymm_total {l₁ l₂ : List Nat} (h : l₁ ≠ l₂) :
    bytesLt l₁ l₂ = !bytesLt l₂ l₁ := by
  induction l₁ generalizing l₂ with
  | nil =>
    cases l₂ with
    | nil => exact absurd rfl h
    | cons b bs => rfl
  | cons a as ih =>
    cases l₂ with
    | nil => rfl
    | cons b bs =>
      by_cases hab : a < b
      · simp [bytesLt, hab, Nat.lt_asymm hab]
      · by_cases hba : b < a
        · simp [bytesLt, hab, hba]
        · have hEq : a = b := Nat.le_antisymm (Nat.le_of_not_lt hba) (Nat.le_of_not_lt hab)
          subst hEq
          have hne : as ≠ bs := by
            intro hc; exact h (by rw [hc])
          simp [bytesLt, Nat.lt_irrefl, ih hne]

/-- C8: `evenCompare` is a deterministic strict comparator — it is a pure
function of its arguments, `evenCompare a a = false`, and for identifiers
whose SHA-256 digests differ exactly one of `evenCompare a b`,
`evenCompare b a` is true. -/
theorem evenCompare_strict_comparator :
    (∀ a, evenCompare a a = false) ∧
      (∀ a b, sha256 (strBytes a) ≠ sha256 (strBytes b) →
        evenCompare a b = !evenCompare b a) := by
  refine ⟨fun a => bytesLt_irrefl _, fun a b h => bytesLt_asymm_total h⟩

theorem evenCompare_strict_comparator_witness :
    evenCompare "A" "A" = false ∧
      (sha256 (strBytes "A") ≠ sha256 (strBytes "B") ∧
        evenCompare "A" "B" = !evenCompare "B" "A") :=
  ⟨evenCompare_strict_comparator.1 "A",
    by decide, evenCompare_strict_comparator.2 "A" "B" (by decide)⟩

/-!  ConnectivityPlanner: `distributedConnectionMap`. -/

/-- Lookup in an association list (Python `dict.__getitem__`; every key used
by the algorithm is present, absent keys default to `[]`). -/
def lookupList (m : List (String × List String)) (k : String) : List String :=
  match m with
  | [] => []
  | p :: rest => if p.1 = k then p.2 else lookupList rest k

/-- Append `v` to the list stored under key `k` (Python
`connmap[k].append(v)`). -/
def appendVal (m : List (String × List String)) (k v : String) :
    List (String × List String) :=
  m.map (fun p => if p.1 = k then (p.1, p.2 ++ [v]) else p)

/-- One iteration of the assignment loop of `distributedConnectionMap`: give
the edge to the first component if its list is below capacity, else to the
second, unconditionally. -/
def connStep (maxPer : Nat) (m : List (String × List String)) (pr : String × String) :
    List (String × List String) :=
  if (lookupList m pr.1).length < maxPer then appendVal m pr.1 pr.2
  else appendVal m pr.2 pr.1

/-- Embedding of `OrderedDict((n, []) for n in names)`: keys in first
occurrence order, later duplicates ignored, all values empty. -/
def initMap (names : List String) : List (String × List String) :=
  names.foldl (fun m n => if n ∈ m.map Prod.fst then m else m ++ [(n, [])]) []

/-- Embedding of `itertools.combinations(names, 2)`: all pairs with the first
element first, in order of the second element, then pairs of the tail. -/
def combinations2 : List String → List (String × String)
  | [] => []
  | x :: xs => xs.map (fun y => (x, y)) ++ combinations2 xs

/-- Lexicographic order on code-point sequences, the order Python uses to
compare strings. -/
def lexLeChars : List Char → List Char → Bool
  | [], _ => true
  | _ :: _, [] => false
  | a :: as, b :: bs =>
    if a.toNat < b.toNat then true
    else if b.toNat < a.toNat then false
    else lexLeChars as bs

/-- Lexicographic `≤` on strings via their character sequences. -/
def strLeB (a b : String) : Bool := lexLeChars a.data b.data

/-- Ascending lexicographic sort, the result of Python `names.sort()` (on
strings any correct sort yields the same list). -/
def sortNames (names : List String) : List String :=
  List.insertionSort (fun a b => strLeB a b = true) names

/-- Embedding of `distributedConnectionMap` (`util.py`, lines 240-259).  On
the empty input Python raises `ZeroDivisionError` at
`math.ceil(len(combos) / len(names))`; otherwise `maxPer` is the ceiling
division and the combination pairs are folded through the greedy
assignment. -/
def distributedConnectionMap (names : List String) :
    Except String (List (String × List String)) :=
  if (sortNames names).length = 0 then Except.error "ZeroDivisionError"
  else Except.ok ((combinations2 (sortNames names)).foldl
    (connStep (((combinations2 (sortNames names)).length + (sortNames names).length - 1) /
      (sortNames names).length))
    (initMap (sortNames names)))

/-- State-passing variant recording the side effect of `names.sort()`: the
first component is the caller's list after the call. -/
def distributedConnectionMapState (names : List String) :
    List String × Except String (List (String × List String)) :=
  (sortNames names, distributedConnectionMap names)

/-- Modelled from the spec's words (section 4.3) for comparison with the
source: sort, enumerate unordered pairs in natural combination order, take
`maxPer = ceil(n*(n-1)/2 / n)`, and assign greedily. -/
def connectivityPlanSpec (names : List String) : List (String × List String) :=
  (combinations2 (sortNames names)).foldl
    (connStep (((sortNames names).length * ((sortNames names).length - 1) / 2 +
      (sortNames names).length - 1) / (sortNames names).length))
    (initMap (sortNames names))

theorem sortNames_perm (names : List String) : (sortNames names).Perm names :=
  List.perm_insertionSort _ names

theorem sortNames_length (names : List String) :
    (sortNames names).length = names.length :=
  (sortNames_perm names).length_eq

theorem combinations2_length (l : List String) :
    2 * (combinations2 l).length = l.length * (l.length - 1) := by
  have aux : ∀ m : List String, 2 * (combinations2 m).length + m.length = m.length * m.length := by
    intro m
    induction m with
    | nil => rfl
    | cons x xs ih =>
      simp only [combinations2, List.length_append, List.length_map, List.length_cons]
      have h : (xs.length + 1) * (xs.length + 1) = xs.length * xs.length + 2 * xs.length + 1 := by
        ring
      rw [h]
      linarith
  have h := aux l
  cases hl : l.length with
  | zero => rw [hl] at h; simpa using h
  | succ m =>
    rw [hl] at h
    have h2 : (m + 1) * (m + 1) = (m + 1) * m + (m + 1) := by ring
    rw [h2] at h
    simpa using by linarith

/-- C3: the source's greedy assignment coincides with the spec's description
(same sorted order, same pair enumeration, `maxPer = ceil(n*(n-1)/2 / n)`,
same overflow rule), and on input `A, B, C` the plan is
`A : [B], B : [C], C : [A]`. -/
theorem distributedConnectionMap_eq_spec :
    (∀ names : List String, names ≠ [] →
      distributedConnectionMap names = Except.ok (connectivityPlanSpec names)) ∧
      distributedConnectionMap ["A", "B", "C"] =
        Except.ok [("A", ["B"]), ("B", ["C"]), ("C", ["A"])] := by
  constructor
  · intro names h
    have hne : (sortNames names).length ≠ 0 := by
      rw [sortNames_length]
      exact fun hc => h (List.eq_nil_of_length_eq_zero hc)
    have hc : (combinations2 (sortNames names)).length =
        (sortNames names).length * ((sortNames names).length - 1) / 2 := by
      rw [← combinations2_length (sortNames names)]
      omega
    unfold distributedConnectionMap connectivityPlanSpec
    rw [if_neg hne, hc]
  · rfl

theorem distributedConnectionMap_eq_spec_witness :
    distributedConnectionMap ["A", "B", "C"] =
      Except.ok (connectivityPlanSpec ["A", "B", "C"]) :=
  distributedConnectionMap_eq_spec.1 ["A", "B", "C"] (by decide)

/-- C7 counterexample: a list with duplicate names is not rejected — the
code happily returns a (degenerate, self-looped) plan instead of failing. -/
theorem distributedConnectionMap_dup_not_error :
    ¬ (["A", "A"] : List String).Nodup ∧
      distributedConnectionMap ["A", "A"] = Except.ok [("A", ["A"])] :=
  ⟨by decide, rfl⟩

/-- C7 amended: `distributedConnectionMap` fails (with the interpreter's
`ZeroDivisionError` at the `maxPer` division) exactly on the empty input;
duplicate names are accepted, not rejected. -/
theorem distributedConnectionMap_error_iff (names : List String) :
    (∃ e, distributedConnectionMap names = Except.error e) ↔ names = [] := by
  constructor
  · rintro ⟨e, h⟩
    unfold distributedConnectionMap at h
    by_cases hn : (sortNames names).length = 0
    · rw [sortNames_length] at hn
      exact List.eq_nil_of_length_eq_zero hn
    · rw [if_neg hn] at h
      cases h
  · rintro rfl
    exact ⟨"ZeroDivisionError", rfl⟩

theorem distributedConnectionMap_error_iff_witness :
    ∃ e, distributedConnectionMap [] = Except.error e :=
  (distributedConnectionMap_error_iff []).mpr rfl

/-- C9 counterexample: `distributedConnectionMap` sorts the caller's list in
place; after the call on `["B", "A"]` the caller's list is `["A", "B"]` and
no longer `["B", "A"]`. -/
theorem distributedConnectionMapState_mutates :
    (distributedConnectionMapState ["B", "A"]).1 = ["A", "B"] ∧
      (distributedConnectionMapState ["B", "A"]).1 ≠ ["B", "A"] := by
  refine ⟨by decide, by decide⟩

/-- C9 amended: the call leaves the caller's list a permutation of its
original contents (it is sorted in place — same elements, possibly new
order); the purely arithmetic operations take and return values and have no
such effect. -/
theorem distributedConnectionMapState_perm (names : List String) :
    ((distributedConnectionMapState names).1).Perm names :=
  sortNames_perm names

theorem distributedConnectionMapState_perm_witness :
    ((distributedConnectionMapState ["B", "A"]).1).Perm ["B", "A"] :=
  distributedConnectionMapState_perm ["B", "A"]

/-!  Edge-coverage accounting for the connectivity plan. -/

/-- Keys of the connection map, in order. -/
def keysOf (m : List (String × List String)) : List String := m.map Prod.fst

/-- Multiplicity of the unordered edge between distinct names `x` and `y` in
the plan: occurrences of `y` in `x`'s list plus occurrences of `x` in `y`'s
list. -/
def entryCount (m : List (String × List String)) (x y : String) : Nat :=
  countOcc y (lookupList m x) + countOcc x (lookupList m y)

theorem lookupList_appendVal_self {m : List (String × List String)} {k : String}
    (hk : k ∈ keysOf m) (v : String) :
    lookupList (appendVal m k v) k = lookupList m k ++ [v] := by
  induction m with
  | nil => cases hk
  | cons p rest ih =>
    by_cases hp : p.1 = k
    · simp [appendVal, lookupList, hp]
    · have hk' : k ∈ keysOf rest := by
        rcases List.mem_cons.mp hk with h | h
        · exact absurd h.symm hp
        · exact h
      simpa [appendVal, lookupList, hp] using ih hk'

theorem lookupList_appendVal_other {m : List (String × List String)} {x k : String}
    (h : x ≠ k) (v : String) :
    lookupList (appendVal m k v) x = lookupList m x := by
  have h' : k ≠ x := Ne.symm h
  induction m with
  | nil => rfl
  | cons p rest ih =>
    by_cases hp : p.1 = k
    · simpa [appendVal, lookupList, hp, h'] using ih
    · by_cases hx : p.1 = x
      · simp [appendVal, lookupList, hp, hx, h]
      · simpa [appendVal, lookupList, hp, hx] using ih

theorem keysOf_appendVal (m : List (String × List String)) (k v : String) :
    keysOf (appendVal m k v) = keysOf m := by
  unfold keysOf appendVal
  rw [List.map_map]
  apply List.map_congr_left
  intro p _
  by_cases hp : p.1 = k <;> simp [hp, Function.comp]

theorem keysOf_connStep (maxPer : Nat) (m : List (String × List String))
    (pr : String × String) : keysOf (connStep maxPer m pr) = keysOf m := by
  unfold connStep
  split <;> exact keysOf_appendVal ..

theorem connStep_entryCount_self {m : List (String × List String)} {a b : String}
    (maxPer : Nat) (ha : a ∈ keysOf m) (hb : b ∈ keysOf m) (hab : a ≠ b) :
    entryCount (connStep maxPer m (a, b)) a b = entryCount m a b + 1 := by
  unfold connStep entryCount
  split
  · rw [lookupList_appendVal_self ha b, lookupList_appendVal_other (Ne.symm hab) b,
      countOcc_append]
    simp [countOcc]
    omega
  · rw [lookupList_appendVal_other hab a, lookupList_appendVal_self hb a,
      countOcc_append]
    simp [countOcc]
    omega

theorem connStep_entryCount_other {m : List (String × List String)} {a b x y : String}
    (maxPer : Nat) (ha : a ∈ keysOf m) (hb : b ∈ keysOf m) (hxy : x ≠ y)
    (hne : ¬((x = a ∧ y = b) ∨ (x = b ∧ y = a))) :
    entryCount (connStep maxPer m (a, b)) x y = entryCount m x y := by
  push_neg at hne
  unfold connStep entryCount
  split
  · by_cases hxa : x = a
    · subst hxa
      have hyb : b ≠ y := fun hc => hne.1 rfl hc.symm
      have hyx : y ≠ x := Ne.symm hxy
      rw [lookupList_appendVal_self ha b, lookupList_appendVal_other hyx b,
        countOcc_append]
      simp [countOcc, hyb]
    · by_cases hya : y = a
      · subst hya
        have hbx : b ≠ x := fun hc => hne.2 hc.symm rfl
        rw [lookupList_appendVal_other hxa b, lookupList_appendVal_self ha b,
          countOcc_append]
        simp [countOcc, hbx]
      · rw [lookupList_appendVal_other hxa b, lookupList_appendVal_other hya b]
  · by_cases hxb : x = b
    · subst hxb
      have hay : a ≠ y := fun hc => hne.2 rfl hc.symm
      have hyx : y ≠ x := Ne.symm hxy
      rw [lookupList_appendVal_self hb a, lookupList_appendVal_other hyx a,
        countOcc_append]
      simp [countOcc, hay]
    · by_cases hyb : y = b
      · subst hyb
        have hax : a ≠ x := fun hc => hne.1 hc.symm rfl
        rw [lookupList_appendVal_other hxb a, lookupList_appendVal_self hb a,
          countOcc_append]
        simp [countOcc, hax]
      · rw [lookupList_appendVal_other hxb a, lookupList_appendVal_other hyb a]

theorem entryCount_comm (m : List (String × List String)) (x y : String) :
    entryCount m x y = entryCount m y x :=
  Nat.add_comm _ _

theorem foldl_connStep_entryCount (maxPer : Nat) (ps : List (String × String)) :
    ∀ (m : List (String × List String)) (x y : String), x ≠ y →
      (∀ pr ∈ ps, pr.1 ∈ keysOf m ∧ pr.2 ∈ keysOf m ∧ pr.1 ≠ pr.2) →
      entryCount (ps.foldl (connStep maxPer) m) x y =
        entryCount m x y + countOcc (x, y) ps + countOcc (y, x) ps := by
  induction ps with
  | nil => intro m x y _ _; simp [countOcc]
  | cons pr ps ih =>
    intro m x y hxy hmem
    obtain ⟨ha, hb, hab⟩ := hmem pr (List.mem_cons_self _ _)
    rw [List.foldl_cons]
    have hkeys := keysOf_connStep maxPer m pr
    have hmem' : ∀ q ∈ ps, q.1 ∈ keysOf (connStep maxPer m pr) ∧
        q.2 ∈ keysOf (connStep maxPer m pr) ∧ q.1 ≠ q.2 := by
      intro q hq
      rw [hkeys]
      exact hmem q (List.mem_cons_of_mem _ hq)
    rw [ih (connStep maxPer m pr) x y hxy hmem']
    obtain ⟨a, b⟩ := pr
    by_cases hmatch : (x = a ∧ y = b) ∨ (x = b ∧ y = a)
    · rcases hmatch with ⟨hxa, hyb⟩ | ⟨hxb, hya⟩
      · subst hxa; subst hyb
        rw [connStep_entryCount_self maxPer ha hb hxy]
        simp [countOcc, Prod.ext_iff, hxy, Ne.symm hxy]
        omega
      · subst hxb; subst hya
        have h5 : entryCount (connStep maxPer m (y, x)) x y = entryCount m x y + 1 := by
          rw [entryCount_comm, connStep_entryCount_self maxPer ha hb hab, entryCount_comm]
        rw [h5]
        simp [countOcc, Prod.ext_iff, hxy, Ne.symm hxy]
        omega
    · rw [connStep_entryCount_other maxPer ha hb hxy hmatch]
      push_neg at hmatch
      have h1 : ((a : String), (b : String)) ≠ (x, y) := by
        rw [Ne, Prod.ext_iff]
        rintro ⟨hc1, hc2⟩
        exact hmatch.1 hc1.symm hc2.symm
      have h2 : ((a : String), (b : String)) ≠ (y, x) := by
        rw [Ne, Prod.ext_iff]
        rintro ⟨hc1, hc2⟩
        exact hmatch.2 hc2.symm hc1.symm
      simp [countOcc, h1, h2]

theorem mem_combinations2 {l : List String} {pr : String × String}
    (h : pr ∈ combinations2 l) : pr.1 ∈ l ∧ pr.2 ∈ l := by
  induction l with
  | nil => cases h
  | cons x xs ih =>
    simp only [combinations2, List.mem_append, List.mem_map] at h
    rcases h with ⟨y, hy, hpr⟩ | h
    · rw [← hpr]
      exact ⟨List.mem_cons_self _ _, List.mem_cons_of_mem _ hy⟩
    · have := ih h
      exact ⟨List.mem_cons_of_mem _ this.1, List.mem_cons_of_mem _ this.2⟩

theorem combinations2_ne {l : List String} (hn : l.Nodup) :
    ∀ pr ∈ combinations2 l, pr.1 ≠ pr.2 := by
  induction l with
  | nil => intro pr h; cases h
  | cons x xs ih =>
    intro pr h
    simp only [combinations2, List.mem_append, List.mem_map] at h
    rcases h with ⟨y, hy, hpr⟩ | h
    · have h1 : pr.1 = x := by rw [← hpr]
      have h2 : pr.2 = y := by rw [← hpr]
      rw [h1, h2]
      intro hc
      refine (List.nodup_cons.mp hn).1 ?_
      rw [hc]
      exact hy
    · exact ih (List.nodup_cons.mp hn).2 pr h

theorem countOcc_pair_map (h : String) (t : List String) (u v : String) :
    countOcc (u, v) (t.map (fun z => (h, z))) = if u = h then countOcc v t else 0 := by
  induction t with
  | nil => simp [countOcc]
  | cons a t ih =>
    simp only [List.map_cons, countOcc, ih, Prod.ext_iff]
    by_cases hu : u = h
    · by_cases hv : a = v <;> simp [hu, hv]
    · simp [hu]
      intro hc
      exact absurd hc.symm hu

theorem combinations2_pair_count {l : List String} (hn : l.Nodup) {x y : String}
    (hx : x ∈ l) (hy : y ∈ l) (hxy : x ≠ y) :
    countOcc (x, y) (combinations2 l) + countOcc (y, x) (combinations2 l) = 1 := by
  induction l with
  | nil => cases hx
  | cons h t ih =>
    obtain ⟨hh, ht⟩ := List.nodup_cons.mp hn
    rw [combinations2, countOcc_append, countOcc_append,
      countOcc_pair_map, countOcc_pair_map]
    by_cases hxh : x = h
    · have hyt : y ∈ t := by
        rcases List.mem_cons.mp hy with hc | hc
        · exact absurd (hc.trans hxh.symm).symm hxy
        · exact hc
      have hyh : ¬(y = h) := fun hc => hxy (hxh.trans hc.symm)
      have hxt : x ∉ t := hxh ▸ hh
      have t1 : countOcc (x, y) (combinations2 t) = 0 :=
        countOcc_eq_zero_of_not_mem (fun hc => hxt (mem_combinations2 hc).1)
      have t2 : countOcc (y, x) (combinations2 t) = 0 :=
        countOcc_eq_zero_of_not_mem (fun hc => hxt (mem_combinations2 hc).2)
      rw [if_pos hxh, if_neg hyh, t1, t2, countOcc_eq_one_of_nodup ht hyt]
    · by_cases hyh : y = h
      · have hxt : x ∈ t := by
          rcases List.mem_cons.mp hx with hc | hc
          · exact absurd hc hxh
          · exact hc
        have hyt : y ∉ t := hyh ▸ hh
        have t1 : countOcc (x, y) (combinations2 t) = 0 :=
          countOcc_eq_zero_of_not_mem (fun hc => hyt (mem_combinations2 hc).2)
        have t2 : countOcc (y, x) (combinations2 t) = 0 :=
          countOcc_eq_zero_of_not_mem (fun hc => hyt (mem_combinations2 hc).1)
        rw [if_neg hxh, if_pos hyh, t1, t2, countOcc_eq_one_of_nodup ht hxt]
      · have hxt : x ∈ t := by
          rcases List.mem_cons.mp hx with hc | hc
          · exact absurd hc hxh
          · exact hc
        have hyt : y ∈ t := by
          rcases List.mem_cons.mp hy with hc | hc
          · exact absurd hc hyh
          · exact hc
        rw [if_neg hxh, if_neg hyh]
        simpa using ih ht hxt hyt

theorem initMap_mem_keys (l : List String) (x : String) :
    x ∈ keysOf (initMap l) ↔ x ∈ l := by
  have aux : ∀ (l : List String) (acc : List (String × List String)) (x : String),
      x ∈ keysOf (l.foldl (fun m n => if n ∈ m.map Prod.fst then m else m ++ [(n, [])]) acc) ↔
        x ∈ keysOf acc ∨ x ∈ l := by
    intro l
    induction l with
    | nil => intro acc x; simp
    | cons a l ih =>
      intro acc x
      rw [List.foldl_cons]
      by_cases ha : a ∈ acc.map Prod.fst
      · rw [if_pos ha, ih, List.mem_cons]
        constructor
        · rintro (h | h)
          · exact Or.inl h
          · exact Or.inr (Or.inr h)
        · rintro (h | h | h)
          · exact Or.inl h
          · rw [h]; exact Or.inl ha
          · exact Or.inr h
      · rw [if_neg ha, ih]
        simp only [keysOf, List.map_append, List.map_cons, List.map_nil, List.mem_append,
          List.mem_cons, List.mem_singleton, List.not_mem_nil, or_false]
        tauto
  have h := aux l [] x
  simpa [initMap, keysOf] using h

theorem initMap_values (l : List String) : ∀ p ∈ initMap l, p.2 = ([] : List String) := by
  have aux : ∀ (l : List String) (acc : List (String × List String)),
      (∀ p ∈ acc, p.2 = ([] : List String)) →
      ∀ p ∈ l.foldl (fun m n => if n ∈ m.map Prod.fst then m else m ++ [(n, [])]) acc,
        p.2 = ([] : List String) := by
    intro l
    induction l with
    | nil => intro acc h; simpa using h
    | cons a l ih =>
      intro acc h
      rw [List.foldl_cons]
      by_cases ha : a ∈ acc.map Prod.fst
      · rw [if_pos ha]; exact ih acc h
      · rw [if_neg ha]
        refine ih _ ?_
        intro p hp
        rcases List.mem_append.mp hp with hp | hp
        · exact h p hp
        · simp only [List.mem_singleton] at hp
          rw [hp]
  intro p hp
  exact aux l [] (fun q hq => absurd hq (List.not_mem_nil q)) p hp

theorem lookupList_eq_nil {m : List (String × List String)}
    (h : ∀ p ∈ m, p.2 = ([] : List String)) (x : String) : lookupList m x = [] := by
  induction m with
  | nil => rfl
  | cons p rest ih =>
    by_cases hp : p.1 = x
    · simp only [lookupList, if_pos hp]
      exact h p (List.mem_cons_self _ _)
    · simp only [lookupList, if_neg hp]
      exact ih fun q hq => h q (List.mem_cons_of_mem _ hq)

theorem entryCount_initMap (l : List String) (x y : String) :
    entryCount (initMap l) x y = 0 := by
  unfold entryCount
  rw [lookupList_eq_nil (initMap_values l), lookupList_eq_nil (initMap_values l)]
  rfl

/-- Well-formedness of a plan over a name universe: every key is a
participant, every stored peer is a participant different from its key. -/
def WFmap (names : List String) (m : List (String × List String)) : Prop :=
  ∀ p ∈ m, p.1 ∈ names ∧ ∀ v ∈ p.2, v ∈ names ∧ v ≠ p.1

theorem initMap_WF (l : List String) : WFmap l (initMap l) := by
  have aux : ∀ (l : List String) (acc : List (String × List String))
      (p : String × List String),
      p ∈ l.foldl (fun m n => if n ∈ m.map Prod.fst then m else m ++ [(n, [])]) acc →
      p ∈ acc ∨ p.1 ∈ l := by
    intro l
    induction l with
    | nil => intro acc p h; exact Or.inl (by simpa using h)
    | cons a l ih =>
      intro acc p h
      rw [List.foldl_cons] at h
      by_cases ha : a ∈ acc.map Prod.fst
      · rw [if_pos ha] at h
        rcases ih acc p h with h | h
        · exact Or.inl h
        · exact Or.inr (List.mem_cons_of_mem _ h)
      · rw [if_neg ha] at h
        rcases ih _ p h with h | h
        · rcases List.mem_append.mp h with h | h
          · exact Or.inl h
          · simp only [List.mem_singleton] at h
            rw [h]
            exact Or.inr (List.mem_cons_self _ _)
        · exact Or.inr (List.mem_cons_of_mem _ h)
  intro p hp
  have h1 : p.1 ∈ l := by
    rcases aux l [] p hp with h | h
    · cases h
    · exact h
  have h2 := initMap_values l p hp
  rw [h2]
  exact ⟨h1, fun v hv => absurd hv (List.not_mem_nil v)⟩

theorem appendVal_WF (names : List String) {m : List (String × List String)} {k v : String}
    (hm : WFmap names m) (hv : v ∈ names) (hvk : v ≠ k) :
    WFmap names (appendVal m k v) := by
  intro q hq
  obtain ⟨p, hp, hfp⟩ := List.mem_map.mp hq
  by_cases hk : p.1 = k
  · rw [if_pos hk] at hfp
    rw [← hfp]
    refine ⟨(hm p hp).1, ?_⟩
    intro u hu
    rcases List.mem_append.mp hu with hu | hu
    · exact (hm p hp).2 u hu
    · simp only [List.mem_singleton] at hu
      rw [hu]
      exact ⟨hv, fun hc => hvk (hc.trans hk)⟩
  · rw [if_neg hk] at hfp
    rw [← hfp]
    exact hm p hp

theorem connStep_WF (names : List String) {m : List (String × List String)} (maxPer : Nat)
    {a b : String} (hm : WFmap names m) (ha : a ∈ names) (hb : b ∈ names) (hab : a ≠ b) :
    WFmap names (connStep maxPer m (a, b)) := by
  unfold connStep
  split
  · exact appendVal_WF names hm hb (Ne.symm hab)
  · exact appendVal_WF names hm ha hab

theorem foldl_connStep_WF (names : List String) (maxPer : Nat)
    (ps : List (String × String)) :
    ∀ m : List (String × List String), WFmap names m →
      (∀ pr ∈ ps, pr.1 ∈ names ∧ pr.2 ∈ names ∧ pr.1 ≠ pr.2) →
      WFmap names (ps.foldl (connStep maxPer) m) := by
  induction ps with
  | nil => intro m hm _; exact hm
  | cons pr ps ih =>
    intro m hm hmem
    obtain ⟨hp1, hp2, hp3⟩ := hmem pr (List.mem_cons_self _ _)
    rw [List.foldl_cons]
    obtain ⟨a, b⟩ := pr
    exact ih _ (connStep_WF names maxPer hm hp1 hp2 hp3)
      (fun q hq => hmem q (List.mem_cons_of_mem _ hq))

/-- C2: on a non-empty duplicate-free input the returned plan covers the
complete graph exactly — every unordered pair of distinct input names is
recorded in exactly one participant's adjacency list (multiplicity one
across both endpoints), and every recorded entry joins two distinct input
names. -/
theorem distributedConnectionMap_coverage (names : List String)
    (h1 : names ≠ []) (h2 : names.Nodup) :
    ∃ m, distributedConnectionMap names = Except.ok m ∧
      (∀ x y, x ∈ names → y ∈ names → x ≠ y → entryCount m x y = 1) ∧
      (∀ p ∈ m, p.1 ∈ names ∧ ∀ v ∈ p.2, v ∈ names ∧ v ≠ p.1) := by
  have hperm := sortNames_perm names
  have hnd : (sortNames names).Nodup := hperm.symm.nodup h2
  have hne : (sortNames names).length ≠ 0 := by
    rw [sortNames_length]
    exact fun hc => h1 (List.eq_nil_of_length_eq_zero hc)
  refine ⟨(combinations2 (sortNames names)).foldl
      (connStep (((combinations2 (sortNames names)).length + (sortNames names).length - 1) /
        (sortNames names).length))
      (initMap (sortNames names)), ?_, ?_, ?_⟩
  · unfold distributedConnectionMap
    rw [if_neg hne]
  · intro x y hx hy hxy
    have hx' : x ∈ sortNames names := hperm.mem_iff.mpr hx
    have hy' : y ∈ sortNames names := hperm.mem_iff.mpr hy
    have hmem : ∀ pr ∈ combinations2 (sortNames names),
        pr.1 ∈ keysOf (initMap (sortNames names)) ∧
          pr.2 ∈ keysOf (initMap (sortNames names)) ∧ pr.1 ≠ pr.2 := by
      intro pr hpr
      obtain ⟨hq1, hq2⟩ := mem_combinations2 hpr
      exact ⟨(initMap_mem_keys _ _).mpr hq1, (initMap_mem_keys _ _).mpr hq2,
        combinations2_ne hnd pr hpr⟩
    have hfold := foldl_connStep_entryCount
      (((combinations2 (sortNames names)).length + (sortNames names).length - 1) /
        (sortNames names).length)
      (combinations2 (sortNames names)) (initMap (sortNames names)) x y hxy hmem
    have hinit := entryCount_initMap (sortNames names) x y
    have hpair := combinations2_pair_count hnd hx' hy' hxy
    rw [hfold, hinit]
    omega
  · have hmem : ∀ pr ∈ combinations2 (sortNames names),
        pr.1 ∈ sortNames names ∧ pr.2 ∈ sortNames names ∧ pr.1 ≠ pr.2 := by
      intro pr hpr
      obtain ⟨hq1, hq2⟩ := mem_combinations2 hpr
      exact ⟨hq1, hq2, combinations2_ne hnd pr hpr⟩
    have hWF := foldl_connStep_WF (sortNames names)
      (((combinations2 (sortNames names)).length + (sortNames names).length - 1) /
        (sortNames names).length)
      (combinations2 (sortNames names)) (initMap (sortNames names)) (initMap_WF _) hmem
    intro p hp
    obtain ⟨hq1, hq2⟩ := hWF p hp
    exact ⟨hperm.mem_iff.mp hq1,
      fun v hv => ⟨hperm.mem_iff.mp (hq2 v hv).1, (hq2 v hv).2⟩⟩

theorem distributedConnectionMap_coverage_witness :
    ∃ m, distributedConnectionMap ["A", "B", "C"] = Except.ok m ∧
      (∀ x y, x ∈ (["A", "B", "C"] : List String) → y ∈ (["A", "B", "C"] : List String) →
        x ≠ y → entryCount m x y = 1) ∧
      (∀ p ∈ m, p.1 ∈ (["A", "B", "C"] : List String) ∧
        ∀ v ∈ p.2, v ∈ (["A", "B", "C"] : List String) ∧ v ≠ p.1) :=
  distributedConnectionMap_coverage ["A", "B", "C"] (by decide) (by decide)

/-!  AgreementDetector: `checkIfMoreThanFSameItems`. -/

/-- Canonical serialization of a reported value.  String values stand for
their own canonical forms: `json.dumps(·, sort_keys=True)` is a fixed
injective encoding with `json.loads` as left inverse, so it transports
frequencies, ties and first-occurrence order unchanged, and the embedding
takes it to be the identity on this value type. -/
def jsonDumps (s : String) : String := s

/-- Deserialization, the left inverse of `jsonDumps`. -/
def jsonLoads (s : String) : String := s

/-- One step of the counting loop `counts[jItem] = counts.get(jItem, 0) + 1`
on a Python `dict`, which keeps its keys in insertion (first-occurrence)
order: increment in place if present, else append with count 1. -/
def bump (c : List (String × Nat)) (k : String) : List (String × Nat) :=
  if k ∈ c.map Prod.fst
  then c.map (fun p => if p.1 = k then (p.1, p.2 + 1) else p)
  else c ++ [(k, 1)]

/-- The frequency table of the canonical forms, in first-occurrence order. -/
def buildCounts (jItems : List String) : List (String × Nat) := jItems.foldl bump []

/-- Python `max(iterable, key=f)` keeps the current best and replaces it only
on a strictly greater key, so on ties the earliest element wins. -/
def foldMax (best : String × Nat) (rest : List (String × Nat)) : String × Nat :=
  rest.foldl (fun b q => if q.2 > b.2 then q else b) best

/-- Embedding of `max(counts, key=counts.get)` together with the value
lookup; `max` of an empty dict raises `ValueError`. -/
def maxEntry : List (String × Nat) → Option (String × Nat)
  | [] => none
  | p :: rest => some (foldMax p rest)

/-- Embedding of `checkIfMoreThanFSameItems` (`util.py`, lines 464-472):
canonicalize, count canonical forms, pick the maximal entry (`ValueError`
on an empty sequence), return the deserialized winner when its count
strictly exceeds `maxF`, else `False` — embedded as `ok none`. -/
def checkIfMoreThanFSameItems (items : List String) (maxF : Nat) :
    Except String (Option String) :=
  match maxEntry (buildCounts (items.map jsonDumps)) with
  | none => Except.error "ValueError"
  | some best =>
    if best.2 > maxF then Except.ok (some (jsonLoads best.1)) else Except.ok none

/-- First-occurrence deduplication: the key sequence of a Python dict built
by repeated insertion. -/
def dedupFirst : List String → List String
  | [] => []
  | x :: xs => x :: (dedupFirst xs).filter (fun y => decide (y ≠ x))

/-- Highest frequency occurring in the list (0 for the empty list). -/
def maxFreq (items : List String) : Nat :=
  natMaxList (items.map (fun x => countOcc x items))

theorem countOcc_snoc [DecidableEq α] (k x : α) (p : List α) :
    countOcc k (p ++ [x]) = countOcc k p + (if x = k then 1 else 0) := by
  rw [countOcc_append]
  simp [countOcc]

theorem df_mem (l : List String) (x : String) : x ∈ dedupFirst l ↔ x ∈ l := by
  induction l with
  | nil => simp [dedupFirst]
  | cons a l ih =>
    simp only [dedupFirst, List.mem_cons, List.mem_filter, decide_eq_true_eq]
    constructor
    · rintro (h | ⟨h, _⟩)
      · exact Or.inl h
      · exact Or.inr (ih.mp h)
    · rintro (h | h)
      · exact Or.inl h
      · by_cases hax : x = a
        · exact Or.inl hax
        · exact Or.inr ⟨ih.mpr h, hax⟩

theorem df_nodup (l : List String) : (dedupFirst l).Nodup := by
  induction l with
  | nil => exact List.nodup_nil
  | cons a l ih =>
    rw [dedupFirst, List.nodup_cons]
    constructor
    · intro hc
      rw [List.mem_filter] at hc
      have : a ≠ a := by simpa using hc.2
      exact this rfl
    · exact List.Nodup.filter _ ih

theorem df_snoc (p : List String) (x : String) :
    dedupFirst (p ++ [x]) = if x ∈ p then dedupFirst p else dedupFirst p ++ [x] := by
  induction p with
  | nil => simp [dedupFirst]
  | cons a p ih =>
    rw [List.cons_append, dedupFirst, ih, dedupFirst]
    by_cases hx : x ∈ p
    · rw [if_pos hx, if_pos (List.mem_cons_of_mem a hx)]
    · rw [if_neg hx]
      by_cases hxa : x = a
      · rw [if_pos (by rw [hxa]; exact List.mem_cons_self a p), List.filter_append]
        simp [hxa]
      · have hnx : x ∉ a :: p := by
          rw [List.mem_cons]
          rintro (h | h)
          · exact hxa h
          · exact hx h
        rw [if_neg hnx, List.filter_append]
        simp [hxa]

theorem counts_map_keys (p : List String) (c : String → Nat) :
    ((dedupFirst p).map (fun k => (k, c k))).map Prod.fst = dedupFirst p := by
  rw [List.map_map]
  exact List.map_id _

theorem bump_closed (p : List String) (x : String) :
    bump ((dedupFirst p).map (fun k => (k, countOcc k p))) x =
      (dedupFirst (p ++ [x])).map (fun k => (k, countOcc k (p ++ [x]))) := by
  unfold bump
  by_cases hx : x ∈ p
  · have hx' : x ∈ dedupFirst p := (df_mem p x).mpr hx
    have hcond : x ∈ ((dedupFirst p).map (fun k => (k, countOcc k p))).map Prod.fst := by
      rw [counts_map_keys]
      exact hx'
    rw [if_pos hcond, df_snoc, if_pos hx, List.map_map]
    apply List.map_congr_left
    intro k _
    by_cases hkx : k = x
    · simp [Function.comp, hkx, countOcc_snoc]
    · have hxk : ¬(x = k) := fun hc => hkx hc.symm
      simp [Function.comp, hkx, countOcc_snoc, hxk]
  · have hx' : x ∉ dedupFirst p := fun hc => hx ((df_mem p x).mp hc)
    have hcond : x ∉ ((dedupFirst p).map (fun k => (k, countOcc k p))).map Prod.fst := by
      rw [counts_map_keys]
      exact hx'
    rw [if_neg hcond, df_snoc, if_neg hx, List.map_append]
    congr 1
    · apply List.map_congr_left
      intro k hk
      have hkp : k ∈ p := (df_mem p k).mp hk
      have hkx : ¬(x = k) := fun hc => hx (hc ▸ hkp)
      rw [countOcc_snoc]
      simp [hkx]
    · simp [countOcc_snoc, countOcc_eq_zero_of_not_mem hx]

theorem buildCounts_aux (xs : List String) :
    ∀ p : List String,
      List.foldl bump ((dedupFirst p).map (fun k => (k, countOcc k p))) xs =
        (dedupFirst (p ++ xs)).map (fun k => (k, countOcc k (p ++ xs))) := by
  induction xs with
  | nil => intro p; simp
  | cons x xs ih =>
    intro p
    rw [List.foldl_cons, bump_closed, ih (p ++ [x])]
    simp [List.append_assoc]

theorem buildCounts_closed (items : List String) :
    buildCounts items = (dedupFirst items).map (fun k => (k, countOcc k items)) := by
  have h := buildCounts_aux items []
  simpa [buildCounts, dedupFirst] using h

theorem foldMax_spec (rest : List (String × Nat)) :
    ∀ best : String × Nat,
      (∀ q ∈ best :: rest, q.2 ≤ (foldMax best rest).2) ∧
        ∃ l₁ l₂, best :: rest = l₁ ++ (foldMax best rest) :: l₂ ∧
          ∀ q ∈ l₁, q.2 < (foldMax best rest).2 := by
  induction rest with
  | nil =>
    intro best
    constructor
    · intro q hq
      rcases List.mem_cons.mp hq with h | h
      · rw [h]
        exact Nat.le_refl _
      · cases h
    · exact ⟨[], [], rfl, fun q hq => absurd hq (List.not_mem_nil q)⟩
  | cons q rest ih =>
    intro best
    by_cases hq : q.2 > best.2
    · have hfe : foldMax best (q :: rest) = foldMax q rest := by
        unfold foldMax
        simp only [List.foldl_cons]
        rw [if_pos hq]
      obtain ⟨hb, l₁, l₂, hsplit, hlt⟩ := ih q
      rw [hfe]
      constructor
      · intro r hr
        rcases List.mem_cons.mp hr with h | h
        · rw [h]
          exact Nat.le_trans (Nat.le_of_lt hq) (hb q (List.mem_cons_self _ _))
        · exact hb r h
      · refine ⟨best :: l₁, l₂, ?_, ?_⟩
        · rw [List.cons_append, ← hsplit]
        · intro r hr
          rcases List.mem_cons.mp hr with h | h
          · rw [h]
            exact Nat.lt_of_lt_of_le hq (hb q (List.mem_cons_self _ _))
          · exact hlt r h
    · have hfe : foldMax best (q :: rest) = foldMax best rest := by
        unfold foldMax
        simp only [List.foldl_cons]
        rw [if_neg hq]
      obtain ⟨hb, l₁, l₂, hsplit, hlt⟩ := ih best
      rw [hfe]
      constructor
      · intro r hr
        rcases List.mem_cons.mp hr with h | h
        · rw [h]
          exact hb best (List.mem_cons_self _ _)
        · rcases List.mem_cons.mp h with h2 | h2
          · rw [h2]
            exact Nat.le_trans (Nat.le_of_not_lt hq) (hb best (List.mem_cons_self _ _))
          · exact hb r (List.mem_cons_of_mem _ h2)
      · cases l₁ with
        | nil =>
          rw [List.nil_append] at hsplit
          injection hsplit with h1 h2
          refine ⟨[], q :: l₂, ?_, fun r hr => absurd hr (List.not_mem_nil r)⟩
          rw [List.nil_append, ← h1, ← h2]
        | cons c l₁ =>
          rw [List.cons_append] at hsplit
          injection hsplit with h1 h2
          refine ⟨best :: q :: l₁, l₂, ?_, ?_⟩
          · rw [List.cons_append, List.cons_append, ← h2]
          · intro r hr
            have hclt : c.2 < (foldMax best rest).2 := hlt c (List.mem_cons_self _ _)
            have hb2 : best.2 = c.2 := by rw [h1]
            rcases List.mem_cons.mp hr with h | h
            · rw [h, hb2]
              exact hclt
            · rcases List.mem_cons.mp h with h2' | h2'
              · rw [h2']
                refine Nat.lt_of_le_of_lt (Nat.le_of_not_lt hq) ?_
                rw [hb2]
                exact hclt
              · exact hlt r (List.mem_cons_of_mem _ h2')

theorem df_pairwise_firstIdx (l : List String) :
    (dedupFirst l).Pairwise (fun a b => firstIdx a l < firstIdx b l) := by
  induction l with
  | nil => exact List.Pairwise.nil
  | cons x xs ih =>
    rw [dedupFirst, List.pairwise_cons]
    constructor
    · intro b hb
      rw [List.mem_filter] at hb
      have hbx : b ≠ x := by simpa using hb.2
      have hxb : ¬(x = b) := fun hc => hbx hc.symm
      simp [firstIdx, hxb]
    · have hsub : ((dedupFirst xs).filter (fun y => decide (y ≠ x))).Sublist (dedupFirst xs) :=
        List.filter_sublist _
      have hpw := List.Pairwise.sublist hsub ih
      refine List.Pairwise.imp_of_mem ?_ hpw
      intro a b ha hb hab
      have hax : a ≠ x := by
        have := (List.mem_filter.mp ha).2
        simpa using this
      have hbx : b ≠ x := by
        have := (List.mem_filter.mp hb).2
        simpa using this
      have hxa : ¬(x = a) := fun hc => hax hc.symm
      have hxb : ¬(x = b) := fun hc => hbx hc.symm
      simp only [firstIdx, if_neg hxa, if_neg hxb]
      omega

theorem map_jsonDumps (l : List String) : l.map jsonDumps = l := by
  induction l with
  | nil => rfl
  | cons a l ih => simp [jsonDumps, ih]

theorem check_eq (items : List String) (b : String × Nat)
    (hmax : maxEntry (buildCounts (items.map jsonDumps)) = some b) (maxF : Nat) :
    checkIfMoreThanFSameItems items maxF =
      if b.2 > maxF then Except.ok (some (jsonLoads b.1)) else Except.ok none := by
  unfold checkIfMoreThanFSameItems
  rw [hmax]

theorem check_main (items : List String) (h : items ≠ []) :
    ∃ b : String × Nat,
      maxEntry (buildCounts (items.map jsonDumps)) = some b ∧
      b.1 ∈ items ∧ b.2 = countOcc b.1 items ∧ b.2 = maxFreq items ∧
      ∀ w, countOcc w items = maxFreq items → w ∈ items →
        firstIdx b.1 items ≤ firstIdx w items := by
  have hcounts : buildCounts (items.map jsonDumps) =
      (dedupFirst items).map (fun k => (k, countOcc k items)) := by
    rw [map_jsonDumps, buildCounts_closed]
  obtain ⟨d₀, dtail, hd⟩ : ∃ d₀ dtail, dedupFirst items = d₀ :: dtail := by
    cases items with
    | nil => exact absurd rfl h
    | cons a l => exact ⟨a, (dedupFirst l).filter (fun y => decide (y ≠ a)), rfl⟩
  have hcounts2 : buildCounts (items.map jsonDumps) =
      (d₀, countOcc d₀ items) :: dtail.map (fun k => (k, countOcc k items)) := by
    rw [hcounts, hd, List.map_cons]
  obtain ⟨B, hBdef⟩ : ∃ B, B = foldMax (d₀, countOcc d₀ items)
      (dtail.map (fun k => (k, countOcc k items))) := ⟨_, rfl⟩
  obtain ⟨hb, l₁, l₂, hsplit, hlt⟩ :=
    foldMax_spec (dtail.map (fun k => (k, countOcc k items))) (d₀, countOcc d₀ items)
  rw [← hBdef] at hsplit hlt hb
  have hmaxE : maxEntry (buildCounts (items.map jsonDumps)) = some B := by
    rw [hcounts2, hBdef]
    rfl
  have hentry : ∀ z, z ∈ items → ((z, countOcc z items) : String × Nat) ∈
      (d₀, countOcc d₀ items) :: dtail.map (fun k => (k, countOcc k items)) := by
    intro z hz
    have hmm : ((z, countOcc z items) : String × Nat) ∈
        (dedupFirst items).map (fun k => (k, countOcc k items)) :=
      List.mem_map.mpr ⟨z, (df_mem items z).mpr hz, rfl⟩
    rw [hd, List.map_cons] at hmm
    exact hmm
  have hBmem : B ∈ (d₀, countOcc d₀ items) :: dtail.map (fun k => (k, countOcc k items)) := by
    rw [hsplit]
    exact List.mem_append_right _ (List.mem_cons_self _ _)
  have hBform : B.1 ∈ dedupFirst items ∧ B.2 = countOcc B.1 items := by
    have hmm : B ∈ (dedupFirst items).map (fun k => (k, countOcc k items)) := by
      rw [hd, List.map_cons]
      exact hBmem
    obtain ⟨k, hk, hfk⟩ := List.mem_map.mp hmm
    constructor
    · rw [← hfk]
      exact hk
    · rw [← hfk]
  have hBmem_items : B.1 ∈ items := (df_mem items B.1).mp hBform.1
  have hle1 : B.2 ≤ maxFreq items := by
    rw [hBform.2]
    exact le_natMaxList (List.mem_map.mpr ⟨B.1, hBmem_items, rfl⟩)
  have hle2 : maxFreq items ≤ B.2 := by
    apply natMaxList_le
    intro a ha
    obtain ⟨x, hx, hxa⟩ := List.mem_map.mp ha
    rw [← hxa]
    exact hb _ (hentry x hx)
  have hBfreq : B.2 = maxFreq items := Nat.le_antisymm hle1 hle2
  refine ⟨B, hmaxE, hBmem_items, hBform.2, hBfreq, ?_⟩
  intro w hw hwmem
  have hwEntry := hentry w hwmem
  rw [hsplit] at hwEntry
  rcases List.mem_append.mp hwEntry with hw1 | hw2
  · have hval : countOcc w items < B.2 := hlt _ hw1
    omega
  · rcases List.mem_cons.mp hw2 with hw3 | hw3
    · have hwB : w = B.1 := by rw [← hw3]
      rw [hwB]
    · have hPW : ((dedupFirst items).map (fun k => (k, countOcc k items))).Pairwise
          (fun p q => firstIdx p.1 items < firstIdx q.1 items) :=
        List.pairwise_map.mpr (df_pairwise_firstIdx items)
      have hPW2 : ((d₀, countOcc d₀ items) ::
          dtail.map (fun k => (k, countOcc k items))).Pairwise
          (fun p q => firstIdx p.1 items < firstIdx q.1 items) := by
        rw [hd, List.map_cons] at hPW
        exact hPW
      rw [hsplit] at hPW2
      have hres := (List.pairwise_append.mp hPW2).2.1
      have hBw : firstIdx B.1 items < firstIdx w items :=
        (List.pairwise_cons.mp hres).1 _ hw3
      exact Nat.le_of_lt hBw

/-- C4 counterexample: on the empty sequence the code does fail — `max` of
the empty frequency dict raises `ValueError` — contradicting "never fails,
including the empty sequence". -/
theorem checkIfMoreThanFSameItems_empty_error :
    checkIfMoreThanFSameItems [] 0 = Except.error "ValueError" := rfl

/-- C4 amended: for every non-empty sequence, the call returns a value of
maximal frequency exactly when that frequency strictly exceeds `maxF`, and
the no-agreement result (`False`, i.e. absence) otherwise; only the empty
sequence makes it fail (`ValueError`). -/
theorem checkIfMoreThanFSameItems_spec (items : List String) (maxF : Nat)
    (h : items ≠ []) :
    (maxF < maxFreq items → ∃ v, checkIfMoreThanFSameItems items maxF =
      Except.ok (some v) ∧ countOcc v items = maxFreq items) ∧
    (maxFreq items ≤ maxF →
      checkIfMoreThanFSameItems items maxF = Except.ok none) := by
  obtain ⟨b, hmax, hbmem, hbcnt, hbfreq, htie⟩ := check_main items h
  constructor
  · intro hlt
    refine ⟨b.1, ?_, by rw [← hbcnt, hbfreq]⟩
    rw [check_eq items b hmax maxF, if_pos (by rw [hbfreq]; exact hlt : b.2 > maxF)]
    rfl
  · intro hle
    rw [check_eq items b hmax maxF,
      if_neg (by rw [hbfreq]; exact Nat.not_lt.mpr hle : ¬ b.2 > maxF)]

theorem checkIfMoreThanFSameItems_spec_witness :
    (1 < maxFreq ["x", "x", "x", "y"] →
      ∃ v, checkIfMoreThanFSameItems ["x", "x", "x", "y"] 1 = Except.ok (some v) ∧
        countOcc v ["x", "x", "x", "y"] = maxFreq ["x", "x", "x", "y"]) ∧
    (maxFreq ["x", "x", "x", "y"] ≤ 1 →
      checkIfMoreThanFSameItems ["x", "x", "x", "y"] 1 = Except.ok none) :=
  checkIfMoreThanFSameItems_spec ["x", "x", "x", "y"] 1 (by decide)

/-- C10: whenever the winning frequency strictly exceeds `maxF`, the value
returned is one of maximal frequency whose first occurrence is earliest in
the input sequence — the tie among equally frequent canonical forms is
broken by insertion (input) order, deterministically. -/
theorem checkIfMoreThanFSameItems_tie_break (items : List String) (maxF : Nat)
    (h : maxF < maxFreq items) :
    ∃ v, checkIfMoreThanFSameItems items maxF = Except.ok (some v) ∧
      countOcc v items = maxFreq items ∧
      ∀ w, countOcc w items = maxFreq items →
        firstIdx v items ≤ firstIdx w items := by
  have hne : items ≠ [] := by
    intro hc
    rw [hc] at h
    simp [maxFreq, natMaxList] at h
  obtain ⟨b, hmax, hbmem, hbcnt, hbfreq, htie⟩ := check_main items hne
  refine ⟨b.1, ?_, by rw [← hbcnt, hbfreq], ?_⟩
  · rw [check_eq items b hmax maxF, if_pos (by rw [hbfreq]; exact h : b.2 > maxF)]
    rfl
  · intro w hw
    have hwmem : w ∈ items := by
      apply mem_of_countOcc_pos
      rw [hw]
      omega
    exact htie w hw hwmem

theorem checkIfMoreThanFSameItems_tie_break_witness :
    ∃ v, checkIfMoreThanFSameItems ["x", "x", "y", "y"] 1 = Except.ok (some v) ∧
      countOcc v ["x", "x", "y", "y"] = maxFreq ["x", "x", "y", "y"] ∧
      ∀ w, countOcc w ["x", "x", "y", "y"] = maxFreq ["x", "x", "y", "y"] →
        firstIdx v ["x", "x", "y", "y"] ≤ firstIdx w ["x", "x", "y", "y"] :=
  checkIfMoreThanFSameItems_tie_break ["x", "x", "y", "y"] 1 (by decide)
